import Mathlib

/-!
Verification of the extract-module refactoring engine
(`crates/ide-assists/src/handlers/extract_module.rs`).

The development shallowly embeds the refactor-computation pipeline:

* text ranges and the deletion-range merging of `check_intersection_and_push`;
* a syntax-node model (`STree`) sufficient for `extract_target`,
  `Module::get_usage_to_be_processed` and the edit-building closure of
  `extract_module`;
* an `ast::Item`-level model (`Item`) for the visibility pipeline
  (`get_replacements_for_visibilty_change`, `Module::change_visibility`,
  `add_change_vis`) and for the record-field harvesting of
  `Module::get_usages_and_record_fields`;
* the import-path reuse step of
  `Module::process_names_and_namerefs_for_import_resolve`.

External collaborators (the semantic index, parsing) are modelled as input
data of the embedded functions: the embedding takes the collaborator answers
(usage maps, resolvability, collected use-tree paths) as explicit arguments,
exactly where the source consumes them as query results.
-/

namespace ExtractModule

/-! ## Text ranges

`TextRange` from the `text-size` crate: a pair of offsets.  `intersect`
returns `Some` when `max start ≤ min end` (touching ranges intersect in an
empty range), `cover` is the convex hull, and `contains_range` is inclusion.
-/

structure Rg where
  start : Nat
  stop : Nat
deriving DecidableEq, Repr

/-- Whether `TextRange::intersect` returns `Some`: the ranges share at least
a position (possibly an empty touching point). -/
def Rg.intersectsB (a b : Rg) : Bool :=
  max a.start b.start ≤ min a.stop b.stop

/-- `TextRange::cover`: smallest range containing both. -/
def Rg.cover (a b : Rg) : Rg :=
  ⟨min a.start b.start, max a.stop b.stop⟩

/-- `TextRange::contains_range`: `self.start() <= other.start() && other.end() <= self.end()`. -/
def Rg.containsRange (outer inner : Rg) : Bool :=
  outer.start ≤ inner.start && inner.stop ≤ outer.stop

/-! ## Deletion-range merging

`check_intersection_and_push` (extract_module.rs, lines 667-691): the
new import-deletion range is checked against the already scheduled ones; the
source finds the *position of the first* scheduled range intersecting the
new one and overwrites that slot with the cover of the two, otherwise it
pushes the new range at the end.  The recursion below walks the vector in
order and performs exactly that first-position replacement. -/

def check_intersection_and_push : List Rg → Rg → List Rg
  | [], importPath => [importPath]
  | p :: ps, importPath =>
      if p.intersectsB importPath then
        p.cover importPath :: ps
      else
        p :: check_intersection_and_push ps importPath

/-! ## Syntax nodes

A minimal model of `rowan`/`syntax` nodes as rose trees: a node has a
`SyntaxKind`, a rendered text (`to_string`), a text range, and child nodes.
Only the kinds the embedded functions inspect are distinguished; every other
kind is `other`. -/

inductive SKind where
  | nameRef
  | nameNode
  | pathNode
  | whitespace
  | commentTok
  | fnItem
  | structItem
  | enumItem
  | unionItem
  | traitItem
  | typeAliasItem
  | constItem
  | staticItem
  | moduleItem
  | macDefItem
  | macRulesItem
  | macCallItem
  | externCrateItem
  | implItem
  | useItem
  | sourceFile
  | other
deriving DecidableEq, Repr

/-- Whether `ast::Item::cast` succeeds on a node of this kind. -/
def SKind.isItem : SKind → Bool
  | .fnItem | .structItem | .enumItem | .unionItem | .traitItem
  | .typeAliasItem | .constItem | .staticItem | .moduleItem
  | .macDefItem | .macRulesItem | .macCallItem | .externCrateItem
  | .implItem | .useItem => true
  | _ => false

inductive STree where
  | node (kind : SKind) (text : String) (range : Rg) (children : List STree)

def STree.kind : STree → SKind
  | .node k _ _ _ => k

def STree.text : STree → String
  | .node _ t _ _ => t

def STree.range : STree → Rg
  | .node _ _ r _ => r

def STree.children : STree → List STree
  | .node _ _ _ cs => cs

mutual

/-- `SyntaxNode::descendants`: the node itself followed by the descendants of
its children, in preorder. -/
def STree.descendants : STree → List STree
  | .node k t r cs => .node k t r cs :: descendantsList cs

def descendantsList : List STree → List STree
  | [] => []
  | c :: cs => c.descendants ++ descendantsList cs

end

/-! ## Selection analysis: `extract_target` (lines 222-232)

The source collects the covering node's direct children whose range is fully
contained in the trimmed selection, then `chain`s the covering node itself
unconditionally (`iter::once(node.clone())`), casts to `ast::Item` and
partitions into use items and the rest.  The cast is modelled by keeping the
nodes whose kind is an item kind; the partition predicate is
`matches!(item, ast::Item::Use(..))`. -/

structure Module where
  text_range : Rg
  name : String
  body_items : List STree
  use_items : List STree

/-- Note the source wraps the result in `Some` unconditionally, so the
`Option` carries no information and is dropped here. -/
def extract_target (node : STree) (selection_range : Rg) : Module :=
  let selected_nodes :=
    node.children.filter (fun c => selection_range.containsRange c.range) ++ [node]
  let items := selected_nodes.filter (fun c => c.kind.isItem)
  let parts := items.partition (fun c => c.kind == SKind.useItem)
  { text_range := selection_range, name := "modname",
    body_items := parts.2, use_items := parts.1 }

/-- Modelled from the claim's words (claim C9, spec section 4.1): the covering
node itself is taken *only if it alone is selected*, read as: the trimmed
selection range coincides with the covering node's range.  This comparator
definition exists to be compared with `extract_target`, which appends the
covering node unconditionally. -/
def extract_target_claimed (node : STree) (selection_range : Rg) : Module :=
  let selected_nodes :=
    node.children.filter (fun c => selection_range.containsRange c.range) ++
      (if node.range = selection_range then [node] else [])
  let items := selected_nodes.filter (fun c => c.kind.isItem)
  let parts := items.partition (fun c => c.kind == SKind.useItem)
  { text_range := selection_range, name := "modname",
    body_items := parts.2, use_items := parts.1 }

/-! ## Usage rewriting: `Module::get_usage_to_be_processed` (lines 334-355)

The source re-resolves the reference range to an `ast::Path`
(`find_node_at_range`, a collaborator query whose answer is the
`path` argument below), then walks the path's descendants looking for the
first node whose text equals the reference's name text and whose range lies
outside the selection; only a node that then casts to `ast::NameRef` is
returned (a non-`NameRef` match does not stop the walk, so the result is the
first descendant satisfying all three conditions).  The scheduled edit is a
replace of the name-ref's range by `"<module name>::<name-ref text>"`. -/

def get_usage_to_be_processed (selection : Rg) (modName nameText : String)
    (path : Option STree) : Option (Rg × String) :=
  match path with
  | none => none
  | some p =>
      match p.descendants.find? (fun desc =>
          desc.text == nameText
            && !(selection.containsRange desc.range)
            && desc.kind == SKind.nameRef) with
      | some nameRefNode => some (nameRefNode.range, modName ++ "::" ++ nameRefNode.text)
      | none => none

/-! ## The `ast::Item` model for the visibility pipeline

Explicit visibility modifiers (`ast::Visibility`); an absent modifier is
`Option.none`, matching `HasVisibility::visibility()` returning `None`. -/

inductive Visibility where
  | public_
  | crateVisible
  | restricted
deriving DecidableEq, Repr

structure Fld where
  vis : Option Visibility
  text : String
deriving DecidableEq, Repr

/-- `ast::FieldList`: record-style or positional (tuple) fields of a struct. -/
inductive FieldList where
  | recordFieldList (fields : List Fld)
  | tupleFieldList (fields : List Fld)
deriving DecidableEq, Repr

/-- An enum variant with its fields. -/
structure Variant where
  fields : List Fld
deriving DecidableEq, Repr

/-- `ast::Item`, restricted to the payload the embedded passes inspect.
`impl_` carries the presence of the `for` token (`impl Trait for Ty` versus
inherent `impl Ty`), the rendered self type, and its associated items.
Associated items of an impl are themselves `Item`s, as in the source, where
the impl's descendants are cast back to `ast::Item`; in Rust they are
functions, constants and type aliases (macro invocations aside). -/
inductive Item where
  | fn_ (vis : Option Visibility) (name : String)
  | struct_ (vis : Option Visibility) (name : String) (fieldList : Option FieldList)
  | enum_ (vis : Option Visibility) (name : String) (variants : List Variant)
  | union_ (vis : Option Visibility) (name : String) (recordFields : Option (List Fld))
  | const_ (vis : Option Visibility) (name : String)
  | static_ (vis : Option Visibility) (name : String)
  | trait_ (vis : Option Visibility) (name : String)
  | typeAlias (vis : Option Visibility) (name : String)
  | module_ (vis : Option Visibility) (name : String)
  | macDef (vis : Option Visibility) (name : String)
  | macRules (name : String)
  | externCrate (vis : Option Visibility) (name : String)
  | impl_ (forToken : Bool) (selfTy : Option String) (members : List Item)
  | use_ (path : String)
  | macCall (text : String)

/-- The explicit visibility modifier of an item (`HasVisibility::visibility`);
`none` for node kinds that carry no visibility of their own. -/
def Item.vis : Item → Option Visibility
  | .fn_ v _ => v
  | .struct_ v _ _ => v
  | .enum_ v _ _ => v
  | .union_ v _ _ => v
  | .const_ v _ => v
  | .static_ v _ => v
  | .trait_ v _ => v
  | .typeAlias v _ => v
  | .module_ v _ => v
  | .macDef v _ => v
  | .macRules _ => none
  | .externCrate v _ => v
  | .impl_ _ _ _ => none
  | .use_ _ => none
  | .macCall _ => none

/-- The kinds pushed onto `replacements` by
`get_replacements_for_visibilty_change` (lines 851-877): every arm except
non-trait impls (collected separately), use items and the catch-all
(`MacroRules`, `MacroCall`, trait impls fall through `_ => ()`). -/
def is_replacement_target : Item → Bool
  | .const_ _ _ => true
  | .enum_ _ _ _ => true
  | .externCrate _ _ => true
  | .fn_ _ _ => true
  | .macDef _ _ => true
  | .module_ _ _ => true
  | .static_ _ _ => true
  | .struct_ _ _ _ => true
  | .trait_ _ _ => true
  | .typeAlias _ _ => true
  | .union_ _ _ _ => true
  | _ => false

/-- Whether the anchor search of `Module::change_visibility` (lines 383-398)
finds an insertion point among the item's direct children: one of the tokens
`FN_KW`, `STRUCT_KW`, `ENUM_KW`, `TRAIT_KW`, `TYPE_KW`, `MOD_KW`, or else a
`NAME` node.  Constants, statics, unions and 2.0-style macro definitions have
no listed keyword but carry a `NAME` child (the model takes declarations as
named); `extern crate` names its crate with a `NAME_REF`, not a `NAME`, and
has none of the listed keywords, so no anchor is found for it. -/
def anchor_of : Item → Bool
  | .fn_ _ _ => true
  | .struct_ _ _ _ => true
  | .enum_ _ _ _ => true
  | .trait_ _ _ => true
  | .typeAlias _ _ => true
  | .module_ _ _ => true
  | .const_ _ _ => true
  | .static_ _ _ => true
  | .union_ _ _ _ => true
  | .macDef _ _ => true
  | .macRules _ => true
  | .externCrate _ _ => false
  | .impl_ _ _ _ => false
  | .use_ _ => false
  | .macCall _ => false

/-- `add_change_vis` (lines 903-910): a `pub(crate)` modifier is inserted
before the anchor token only when the node has no explicit visibility and an
anchor was found; the net effect on the node's visibility is modelled as the
returned modifier. -/
def add_change_vis (vis : Option Visibility) (anchorFound : Bool) : Option Visibility :=
  match vis with
  | none => if anchorFound then some Visibility.crateVisible else none
  | some v => some v

/-- Replace an item's own visibility modifier, leaving everything else
(name, fields, members) unchanged. -/
def Item.withVis : Item → Option Visibility → Item
  | .fn_ _ n, v => .fn_ v n
  | .struct_ _ n fl, v => .struct_ v n fl
  | .enum_ _ n vs, v => .enum_ v n vs
  | .union_ _ n fs, v => .union_ v n fs
  | .const_ _ n, v => .const_ v n
  | .static_ _ n, v => .static_ v n
  | .trait_ _ n, v => .trait_ v n
  | .typeAlias _ n, v => .typeAlias v n
  | .module_ _ n, v => .module_ v n
  | .macDef _ n, v => .macDef v n
  | .macRules n, _ => .macRules n
  | .externCrate _ n, v => .externCrate v n
  | .impl_ ft ty ms, _ => .impl_ ft ty ms
  | .use_ p, _ => .use_ p
  | .macCall t, _ => .macCall t

/-- Second pass of `Module::change_visibility` on one associated item of a
collected (non-trait) impl: `get_replacements_for_visibilty_change` is run
again over the impl's descendants cast to `ast::Item`, and `add_change_vis`
is applied to each replacement (the record-field parents of that second call
are discarded by the source, so only the member's own visibility changes). -/
def update_assoc_member (m : Item) : Item :=
  if is_replacement_target m then m.withVis (add_change_vis m.vis (anchor_of m)) else m

/-- Field handling of `Module::change_visibility` (lines 372-380): for each
struct/union pushed to `record_field_parents`, every *record* field
(`ast::RecordField::cast`; tuple fields never cast) whose text equals some
harvested field's text gets `add_change_vis` (a record field always has a
`NAME` child, so the anchor is found). -/
def update_field (harvested : List Fld) (f : Fld) : Fld :=
  if harvested.any (fun x => x.text == f.text) then
    { f with vis := add_change_vis f.vis true }
  else f

/-- The record fields `change_visibility` visits inside a struct's field
list: only a record field list; tuple fields do not cast to
`ast::RecordField` and are left alone. -/
def update_field_list (harvested : List Fld) : Option FieldList → Option FieldList
  | some (.recordFieldList fs) => some (.recordFieldList (fs.map (update_field harvested)))
  | some (.tupleFieldList fs) => some (.tupleFieldList fs)
  | none => none

/-- Net per-item effect of `Module::change_visibility` (lines 357-402):

* items of a replacement-target kind get `add_change_vis` on their own
  visibility;
* a non-trait impl (`for_token().is_none()`) is collected into `impls` and
  its members go through the second `get_replacements_for_visibilty_change`
  pass; a trait impl falls through the catch-all arm and is untouched;
* structs and unions are additionally `record_field_parents`: their record
  fields matching a harvested field get `add_change_vis`. -/
def change_vis_item (harvested : List Fld) : Item → Item
  | .fn_ v n => .fn_ (add_change_vis v (anchor_of (.fn_ v n))) n
  | .struct_ v n fl =>
      .struct_ (add_change_vis v (anchor_of (.struct_ v n fl))) n
        (update_field_list harvested fl)
  | .enum_ v n vs => .enum_ (add_change_vis v (anchor_of (.enum_ v n vs))) n vs
  | .union_ v n fs =>
      .union_ (add_change_vis v (anchor_of (.union_ v n fs))) n
        ((fs.map (fun l => l.map (update_field harvested))))
  | .const_ v n => .const_ (add_change_vis v (anchor_of (.const_ v n))) n
  | .static_ v n => .static_ (add_change_vis v (anchor_of (.static_ v n))) n
  | .trait_ v n => .trait_ (add_change_vis v (anchor_of (.trait_ v n))) n
  | .typeAlias v n => .typeAlias (add_change_vis v (anchor_of (.typeAlias v n))) n
  | .module_ v n => .module_ (add_change_vis v (anchor_of (.module_ v n))) n
  | .macDef v n => .macDef (add_change_vis v (anchor_of (.macDef v n))) n
  | .macRules n => .macRules n
  | .externCrate v n => .externCrate (add_change_vis v (anchor_of (.externCrate v n))) n
  | .impl_ ft ty ms => if ft then .impl_ ft ty ms else .impl_ ft ty (ms.map update_assoc_member)
  | .use_ p => .use_ p
  | .macCall t => .macCall t

/-- `Module::change_visibility` over the body items. -/
def change_visibility (harvested : List Fld) (body_items : List Item) : List Item :=
  body_items.map (change_vis_item harvested)

/-! ## Field harvesting: `Module::get_usages_and_record_fields` (lines 235-317)

Along with expanding usages, the loop over the body items harvests into
`adt_fields` the fields of algebraic data types, inside the
`ast::Adt` arm and only when `ctx.sema.to_def` resolves the declaration
(collaborator answer, the `resolves` oracle below): a struct contributes the
fields of its record or tuple field list, a union the fields of its record
field list, and the enum arm is empty (`ast::Adt::Enum(_) => {}`). -/

def adt_fields_of (resolves : Item → Bool) (it : Item) : List Fld :=
  match it with
  | .struct_ v n fl =>
      if resolves (.struct_ v n fl) then
        match fl with
        | some (.recordFieldList fs) => fs
        | some (.tupleFieldList fs) => fs
        | none => []
      else []
  | .union_ v n fs =>
      if resolves (.union_ v n fs) then
        match fs with
        | some l => l
        | none => []
      else []
  | .enum_ _ _ _ => []
  | _ => []

/-- The `adt_fields` list accumulated over the body items. -/
def get_record_fields (resolves : Item → Bool) (body_items : List Item) : List Fld :=
  body_items.flatMap (adt_fields_of resolves)

/-- Modelled from the claim's words (claim C8, spec section 4.2): the fields
the harvesting is said to cover — record-style and positional fields of
struct body declarations and record fields of union body declarations, never
fields of enum variants. -/
def claimed_harvested_fields : Item → List Fld
  | .struct_ _ _ (some (.recordFieldList fs)) => fs
  | .struct_ _ _ (some (.tupleFieldList fs)) => fs
  | .union_ _ _ (some fs) => fs
  | _ => []

/-! ## Import-path reuse:
`Module::process_names_and_namerefs_for_import_resolve` (lines 477-616)

The path-reuse slice of the function: given the classification flags
computed from the single-file usage search (`exists_inside_sel`,
`exists_outside_sel`, `source_exists_outside_sel_in_same_mod`) and the
use-tree path segments collected innermost-first by
`process_use_stmt_for_import_resolve` / `get_use_tree_paths_from_path`
(the `use_tree_str` argument, rendered), it produces the segment list of
the import synthesized inside the new module:

* both inside and outside: the collected path is reused as is (lines
  546-554);
* inside only: when the definition site stays outside the selection in the
  same module, a `super` segment is appended (becoming outermost after the
  reversal) unless the outermost segment's text already contains `super` or
  `crate` (lines 576-585);
* the list is reversed to outer-to-inner order, and — only outside the
  inside-only-with-source-in-same-module case (line 598) — an extra leading
  `super` is inserted when the outermost segment's text contains `super`
  (lines 600-606);
* a name not used inside the selection leads to no synthesis at all.

String containment (`str::contains`) is re-implemented on character lists. -/

def listStartsWith : List Char → List Char → Bool
  | [], _ => true
  | _ :: _, [] => false
  | a :: as, b :: bs => a == b && listStartsWith as bs

def listContainsSub (pat : List Char) : List Char → Bool
  | [] => pat.isEmpty
  | c :: rest => listStartsWith pat (c :: rest) || listContainsSub pat rest

/-- `str::contains(pat)`. -/
def strContains (s pat : String) : Bool :=
  listContainsSub pat.data s.data

def process_reused_import_path (existsInsideSel existsOutsideSel
    sourceExistsOutsideSelInSameMod : Bool) (use_tree_str : List String) :
    Option (List String) :=
  let use_tree_str_opt : Option (List String) :=
    if existsInsideSel && existsOutsideSel then
      some use_tree_str
    else if existsInsideSel && !existsOutsideSel then
      some (if sourceExistsOutsideSelInSameMod then
              match use_tree_str.getLast? with
              | some first_path_in_use_tree =>
                  if !(strContains first_path_in_use_tree "super")
                      && !(strContains first_path_in_use_tree "crate") then
                    use_tree_str ++ ["super"]
                  else use_tree_str
              | none => use_tree_str
            else use_tree_str)
    else none
  match use_tree_str_opt with
  | none => none
  | some l =>
      let l := l.reverse
      some (if !(!existsOutsideSel && existsInsideSel
                  && sourceExistsOutsideSelInSameMod) then
              match l.head? with
              | some first_path_in_use_tree =>
                  if strContains first_path_in_use_tree "super" then
                    "super" :: l
                  else l
              | none => l
            else l)

/-! ## Text synthesis and the edit-building closure (lines 93-208)

Strings: `IndentLevel(n)` displays as `n` units of four spaces;
`AstNodeEdit::indent(IndentLevel(1))` re-indents a node by adding one unit
after every newline of its rendered text.  Both are re-implemented on
character lists so that concrete witnesses evaluate inside the kernel. -/

def spaces : Nat → List Char
  | 0 => []
  | n + 1 => ' ' :: spaces n

/-- Rendering of `IndentLevel(n)`. -/
def indent_str (n : Nat) : String :=
  String.mk (spaces (4 * n))

def indent_chars : List Char → List Char
  | [] => []
  | c :: cs =>
      if c == '\n' then c :: (spaces 4 ++ indent_chars cs)
      else c :: indent_chars cs

/-- Rendering of `item.indent(IndentLevel(1))`. -/
def indent_by_1 (s : String) : String :=
  String.mk (indent_chars s.data)

/-- `Vec::join("\n\n")` over the rendered items. -/
def str_intercalate (sep : String) : List String → String
  | [] => ""
  | [s] => s
  | s :: rest => s ++ sep ++ str_intercalate sep rest

/-- One text edit of the `SourceChangeBuilder`; edits are tagged with the
file they are scheduled in (`builder.edit_file`). -/
inductive EditK where
  | replace (range : Rg) (text : String)
  | del (range : Rg)
  | insert (offset : Nat) (text : String)
deriving DecidableEq, Repr

abbrev Edit := Nat × EditK

/-- The facts `extract_module` derives when the covering node's grandparent
is an `ast::Impl` (lines 70-79): the impl's text range, the number of node
children of the associated-item list (`parent_assoc_list.children().count()`,
i.e. the member count), the rendered self type (`impl_.self_ty()`), and the
impl node's preceding siblings-with-tokens (kind and range, nearest first,
the node itself excluded since its kind is never `WHITESPACE`), consumed by
`indent_range_before_given_node`. -/
structure ImplInfo where
  range : Rg
  childCount : Nat
  selfTy : Option String
  implPrevSiblings : List (SKind × Rg)

/-- `indent_range_before_given_node` (lines 926-930):
`siblings_with_tokens(Direction::Prev).find(|x| x.kind() == WHITESPACE)` —
the nearest preceding sibling of kind `WHITESPACE` (the iterator starts at
the node itself, whose kind is never `WHITESPACE`). -/
def indent_range_before_given_node (prevSiblings : List (SKind × Rg)) : Option Rg :=
  (prevSiblings.find? (fun s => s.1 == SKind.whitespace)).map (fun s => s.2)

/-- Everything the closure of `extract_module` consumes.  `usages` is the
per-file map produced by `get_usages_and_record_fields` (one entry per file,
as it is a `HashMap`); `importRanges` is `import_paths_to_be_removed` as
returned by `resolve_imports`; `bodyTexts`/`useTexts` are the rendered
`body_items`/`use_items` after visibility change and import resolution
(synthesized imports were inserted at the front). -/
structure BuilderInput where
  fileId : Nat
  name : String
  selection : Rg
  usages : List (Nat × List (Rg × String))
  importRanges : List Rg
  implParent : Option ImplInfo
  oldIndent : Nat
  bodyTexts : List String
  useTexts : List String
  nodeRange : Rg
  nodePrevSiblings : List (SKind × Rg)

/-- Lines 117-134: the items rendered into the new module's body — the use
items are only included (in front) when there is no impl parent, and the
indentation level is one deeper than the original items, two deeper with an
impl parent. -/
def rendered_new_items (b : BuilderInput) : List String :=
  let newIndent := if b.implParent.isSome then b.oldIndent + 2 else b.oldIndent + 1
  let itemTexts := if b.implParent.isSome then b.bodyTexts else b.useTexts ++ b.bodyTexts
  itemTexts.map (fun t => indent_str newIndent ++ indent_by_1 t)

def base_body (b : BuilderInput) : String :=
  str_intercalate "\n\n" (rendered_new_items b)

/-- Lines 139-148: the reconstructed impl block of the same self type,
wrapping the rendered members. -/
def impl_wrapped (b : BuilderInput) (ty : String) : String :=
  indent_str (b.oldIndent + 1) ++ "impl " ++ ty ++ " \x7b\n" ++ base_body b ++ "\n"
    ++ indent_str (b.oldIndent + 1) ++ "\x7d"

/-- Lines 136-159: with an impl parent carrying a self type, the
super import for the self type is inserted at the front of the use items
(`make_use_stmt_of_node_with_super`, lines 618-629) and every use item is
then rendered at one extra indent level and prepended before the
reconstructed impl block. -/
def body_with_uses (b : BuilderInput) : String :=
  match b.implParent with
  | some info =>
      match info.selfTy with
      | some ty =>
          (("use super::" ++ ty ++ ";") :: b.useTexts).foldl
            (fun body u => (indent_str (b.oldIndent + 1) ++ u) ++ "\n\n" ++ body)
            (impl_wrapped b ty)
      | none => base_body b
  | none => base_body b

/-- Line 163: `format_to!(module_def, "mod {} {{\n{}\n{}}}", ...)`. -/
def module_def_of (b : BuilderInput) : String :=
  "mod " ++ b.name ++ " \x7b\n" ++ body_with_uses b ++ "\n" ++ indent_str b.oldIndent ++ "\x7d"

/-- Lines 165-180: replace edits at every usage; files other than the
selection's own are edited first, the selection's file last. -/
def usage_edits (b : BuilderInput) : List Edit :=
  (b.usages.filter (fun fu => fu.1 != b.fileId)).flatMap
      (fun fu => fu.2.map (fun rs => ((fu.1, EditK.replace rs.1 rs.2) : Edit)))
    ++ ((match b.usages.find? (fun fu => fu.1 == b.fileId) with
         | some fu => fu.2
         | none => []) : List (Rg × String)).map
        (fun rs => ((b.fileId, EditK.replace rs.1 rs.2) : Edit))

/-- Lines 182-184: delete edits for the merged import ranges, in the
selection's file. -/
def import_delete_edits (b : BuilderInput) : List Edit :=
  b.importRanges.map (fun r => ((b.fileId, EditK.del r) : Edit))

/-- Lines 186-205: with an impl parent, delete the selected node (the whole
impl when the associated-item list had exactly one child), delete the
nearest preceding whitespace sibling of the deleted node if any, and insert
the new module after the impl's end; otherwise replace the selection range
with the new module. -/
def tail_edits (b : BuilderInput) : List Edit :=
  match b.implParent with
  | some info =>
      ((b.fileId, EditK.del (if info.childCount == 1 then info.range else b.nodeRange)) : Edit) ::
        ((match indent_range_before_given_node
              (if info.childCount == 1 then info.implPrevSiblings else b.nodePrevSiblings) with
          | some r => [((b.fileId, EditK.del r) : Edit)]
          | none => []) ++
         [((b.fileId, EditK.insert info.range.stop ("\n\n" ++ module_def_of b)) : Edit)])
  | none => [((b.fileId, EditK.replace b.selection (module_def_of b)) : Edit)]

/-- The full edit schedule of the closure. -/
def builder_edits (b : BuilderInput) : List Edit :=
  usage_edits b ++ import_delete_edits b ++ tail_edits b

/-! ## The assist entry point `extract_module` (lines 56-208) -/

/-- The covering element of the trimmed selection; a token's parent is taken
(line 64) — in a parsed tree every token sits inside a node, so the parent
is carried by the token case. -/
inductive CovElem where
  | node (n : STree)
  | token (parent : STree)

def covering_node : CovElem → STree
  | .node n => n
  | .token p => p

/-- The invocation context: the trigger data plus the collaborator answers
consumed by the pipeline (usage search results, merged import-removal
ranges, synthesized import texts, the impl-parent facts, the indentation
level of the first selected item, and the covering node's preceding
siblings). -/
structure AssistCtx where
  fileId : Nat
  hasEmptySelection : Bool
  selectionTrimmed : Rg
  coveringElement : CovElem
  implParent : Option ImplInfo
  usages : List (Nat × List (Rg × String))
  importRanges : List Rg
  synthUseTexts : List String
  oldIndent : Nat
  nodePrevSiblings : List (SKind × Rg)

/-- The builder input assembled from the context and the extracted module. -/
def builder_input_of (ctx : AssistCtx) (m : Module) : BuilderInput :=
  { fileId := ctx.fileId
    name := m.name
    selection := m.text_range
    usages := ctx.usages
    importRanges := ctx.importRanges
    implParent := ctx.implParent
    oldIndent := ctx.oldIndent
    bodyTexts := m.body_items.map STree.text
    useTexts := ctx.synthUseTexts ++ m.use_items.map STree.text
    nodeRange := (covering_node ctx.coveringElement).range
    nodePrevSiblings := ctx.nodePrevSiblings }

/-- `extract_module` (lines 56-89 plus the closure): `None` on an empty
selection or when the extracted module has no body items; otherwise the
assist is registered with the closure's edit schedule. -/
def extract_module (ctx : AssistCtx) : Option (List Edit) :=
  if ctx.hasEmptySelection then none
  else
    let node := covering_node ctx.coveringElement
    let m := extract_target node ctx.selectionTrimmed
    if m.body_items.isEmpty then none
    else some (builder_edits (builder_input_of ctx m))

/-- Shorthand for the builder input `extract_module` hands to the closure. -/
def binput (ctx : AssistCtx) : BuilderInput :=
  builder_input_of ctx
    (extract_target (covering_node ctx.coveringElement) ctx.selectionTrimmed)

/-! ## Concrete invocation data used to exercise the theorems -/

/-- A single free function covering the selection. -/
def fnNode : STree :=
  .node .fnItem "fn foo() \x7b\x7d" ⟨0, 11⟩ []

/-- A path node re-resolved for a usage, containing one name-ref. -/
def pathTree : STree :=
  .node .pathNode "S" ⟨5, 6⟩ [.node .nameRef "S" ⟨5, 6⟩ []]

/-- An invocation with an empty selection. -/
def ctxEmptySel : AssistCtx :=
  { fileId := 0, hasEmptySelection := true, selectionTrimmed := ⟨0, 0⟩,
    coveringElement := .node fnNode, implParent := none, usages := [],
    importRanges := [], synthUseTexts := [], oldIndent := 0,
    nodePrevSiblings := [] }

/-- An invocation selecting the single free function exactly. -/
def ctxSimpleFn : AssistCtx :=
  { fileId := 0, hasEmptySelection := false, selectionTrimmed := ⟨0, 11⟩,
    coveringElement := .node fnNode, implParent := none, usages := [],
    importRanges := [], synthUseTexts := [], oldIndent := 0,
    nodePrevSiblings := [] }

/-- A member function selected inside an impl block. -/
def implFnNode : STree :=
  .node .fnItem "fn f() \x7b\x7d" ⟨20, 30⟩ []

/-- The impl-parent facts for `ctxImpl`: a two-member `impl S` block. -/
def implInfo1 : ImplInfo :=
  { range := ⟨10, 40⟩, childCount := 2, selfTy := some "S",
    implPrevSiblings := [] }

/-- An invocation hosted inside an impl block. -/
def ctxImpl : AssistCtx :=
  { fileId := 0, hasEmptySelection := false, selectionTrimmed := ⟨20, 30⟩,
    coveringElement := .node implFnNode, implParent := some implInfo1,
    usages := [], importRanges := [], synthUseTexts := [], oldIndent := 1,
    nodePrevSiblings := [(.whitespace, ⟨15, 20⟩)] }

/-- A builder input with one usage in another file. -/
def b10 : BuilderInput :=
  { fileId := 0, name := "modname", selection := ⟨0, 1⟩,
    usages := [(1, [(⟨2, 3⟩, "m::x")])], importRanges := [],
    implParent := none, oldIndent := 0, bodyTexts := [], useTexts := [],
    nodeRange := ⟨0, 1⟩, nodePrevSiblings := [] }

/-- The cross-file usage edit scheduled by `b10`. -/
def e10 : Edit :=
  (1, EditK.replace ⟨2, 3⟩ "m::x")

/-! ## Observations for the visibility-monotonicity statement -/

/-- The only transition the engine may perform on a visibility slot:
either it is unchanged, or an absent modifier became `pub(crate)`. -/
def vis_monotone (a b : Option Visibility) : Prop :=
  b = a ∨ (a = none ∧ b = some Visibility.crateVisible)

/-- The visibility slots of a struct field list. -/
def field_vises : Option FieldList → List (Option Visibility)
  | some (.recordFieldList fs) => fs.map Fld.vis
  | some (.tupleFieldList fs) => fs.map Fld.vis
  | none => []

/-- All visibility slots the visibility pass can reach on one item: the
item's own modifier, the own modifiers of an impl's members, and the
modifiers of a struct's or union's fields. -/
def item_vises : Item → List (Option Visibility)
  | .impl_ _ _ ms => ms.map Item.vis
  | .struct_ v _ fl => v :: field_vises fl
  | .union_ v _ fs => v :: (match fs with
      | some l => l.map Fld.vis
      | none => [])
  | it => [it.vis]

/-- The associated-item declaration kinds of an impl block (functions,
constants, type aliases). -/
def is_assoc_decl : Item → Bool
  | .fn_ _ _ => true
  | .const_ _ _ => true
  | .typeAlias _ _ => true
  | _ => false

/-! ## Helper lemmas -/

lemma add_change_vis_mono (v : Option Visibility) (anchorFound : Bool) :
    add_change_vis v anchorFound = v
      ∨ (v = none ∧ add_change_vis v anchorFound = some Visibility.crateVisible) := by
  cases v with
  | none =>
      cases anchorFound with
      | false => exact Or.inl rfl
      | true => exact Or.inr ⟨rfl, rfl⟩
  | some v => exact Or.inl rfl

lemma vis_monotone_add (v : Option Visibility) (anchorFound : Bool) :
    vis_monotone v (add_change_vis v anchorFound) :=
  add_change_vis_mono v anchorFound

lemma vis_monotone_refl (v : Option Visibility) : vis_monotone v v :=
  Or.inl rfl

lemma update_field_vis_mono (harvested : List Fld) (f : Fld) :
    vis_monotone f.vis (update_field harvested f).vis := by
  unfold update_field
  by_cases hc : harvested.any (fun x => x.text == f.text)
  · simp only [hc, if_true]
    exact vis_monotone_add f.vis true
  · simp only [hc, if_false]
    exact vis_monotone_refl f.vis

lemma update_assoc_member_vis_mono (m : Item) :
    vis_monotone m.vis (update_assoc_member m).vis := by
  cases m <;>
    simp only [update_assoc_member, is_replacement_target, anchor_of,
      Item.withVis, Item.vis, if_true, if_false, Bool.false_eq_true,
      reduceIte] <;>
    first
      | exact vis_monotone_add _ _
      | exact vis_monotone_refl _

lemma forall₂_vis_member_map (ms : List Item) :
    List.Forall₂ vis_monotone (ms.map Item.vis)
      ((ms.map update_assoc_member).map Item.vis) := by
  induction ms with
  | nil => exact List.Forall₂.nil
  | cons m ms ih => exact List.Forall₂.cons (update_assoc_member_vis_mono m) ih

lemma forall₂_vis_field_map (harvested : List Fld) (fs : List Fld) :
    List.Forall₂ vis_monotone (fs.map Fld.vis)
      ((fs.map (update_field harvested)).map Fld.vis) := by
  induction fs with
  | nil => exact List.Forall₂.nil
  | cons f fs ih => exact List.Forall₂.cons (update_field_vis_mono harvested f) ih

lemma forall₂_vis_refl (l : List (Option Visibility)) :
    List.Forall₂ vis_monotone l l :=
  List.forall₂_same.mpr (fun v _ => vis_monotone_refl v)

lemma field_vises_mono (harvested : List Fld) (fl : Option FieldList) :
    List.Forall₂ vis_monotone (field_vises fl)
      (field_vises (update_field_list harvested fl)) := by
  cases fl with
  | none => exact List.Forall₂.nil
  | some l =>
      cases l with
      | recordFieldList fs => exact forall₂_vis_field_map harvested fs
      | tupleFieldList fs => exact forall₂_vis_refl _

lemma item_vises_mono (harvested : List Fld) (it : Item) :
    List.Forall₂ vis_monotone (item_vises it)
      (item_vises (change_vis_item harvested it)) := by
  cases it with
  | impl_ ft ty ms =>
      cases ft with
      | true =>
          simp only [change_vis_item, if_true]
          exact forall₂_vis_refl _
      | false =>
          simp only [change_vis_item, Bool.false_eq_true, if_false, item_vises]
          exact forall₂_vis_member_map ms
  | struct_ v n fl =>
      simp only [change_vis_item, item_vises]
      exact List.Forall₂.cons (vis_monotone_add v _) (field_vises_mono harvested fl)
  | union_ v n fs =>
      cases fs with
      | none =>
          simp only [change_vis_item, item_vises, Option.map_none]
          exact List.Forall₂.cons (vis_monotone_add v _) List.Forall₂.nil
      | some l =>
          simp only [change_vis_item, item_vises, Option.map_some]
          exact List.Forall₂.cons (vis_monotone_add v _) (forall₂_vis_field_map harvested l)
  | fn_ v n => exact List.Forall₂.cons (vis_monotone_add v _) List.Forall₂.nil
  | enum_ v n vs => exact List.Forall₂.cons (vis_monotone_add v _) List.Forall₂.nil
  | const_ v n => exact List.Forall₂.cons (vis_monotone_add v _) List.Forall₂.nil
  | static_ v n => exact List.Forall₂.cons (vis_monotone_add v _) List.Forall₂.nil
  | trait_ v n => exact List.Forall₂.cons (vis_monotone_add v _) List.Forall₂.nil
  | typeAlias v n => exact List.Forall₂.cons (vis_monotone_add v _) List.Forall₂.nil
  | module_ v n => exact List.Forall₂.cons (vis_monotone_add v _) List.Forall₂.nil
  | macDef v n => exact List.Forall₂.cons (vis_monotone_add v _) List.Forall₂.nil
  | externCrate v n => exact List.Forall₂.cons (vis_monotone_add v _) List.Forall₂.nil
  | macRules n => exact List.Forall₂.cons (vis_monotone_refl _) List.Forall₂.nil
  | use_ p => exact List.Forall₂.cons (vis_monotone_refl _) List.Forall₂.nil
  | macCall t => exact List.Forall₂.cons (vis_monotone_refl _) List.Forall₂.nil

lemma tail_edits_ne_nil (b : BuilderInput) : tail_edits b ≠ [] := by
  unfold tail_edits
  cases b.implParent with
  | none => simp
  | some info => simp

lemma builder_edits_ne_nil (b : BuilderInput) : builder_edits b ≠ [] := by
  unfold builder_edits
  intro h
  rw [List.append_assoc, List.append_eq_nil] at h
  rw [List.append_eq_nil] at h
  exact tail_edits_ne_nil b h.2.2

lemma tail_edits_fst (b : BuilderInput) : ∀ x ∈ tail_edits b, x.1 = b.fileId := by
  intro x hx
  unfold tail_edits at hx
  cases hb : b.implParent with
  | none =>
      rw [hb] at hx
      rw [List.mem_singleton.mp hx]
  | some info =>
      rw [hb] at hx
      rcases List.mem_cons.mp hx with hx | hx
      · rw [hx]
      · rcases List.mem_append.mp hx with hx | hx
        · cases hw : indent_range_before_given_node
              (if info.childCount == 1 then info.implPrevSiblings
               else b.nodePrevSiblings) with
          | none => rw [hw] at hx; exact absurd hx (List.not_mem_nil x)
          | some r => rw [hw] at hx; rw [List.mem_singleton.mp hx]
        · rw [List.mem_singleton.mp hx]

lemma foldl_use_prepend (ind : String) (us : List String) (acc : String) :
    ∃ p, us.foldl (fun body u => (ind ++ u) ++ "\n\n" ++ body) acc = p ++ acc := by
  induction us generalizing acc with
  | nil => exact ⟨"", (String.empty_append acc).symm⟩
  | cons u us ih =>
      obtain ⟨p, hp⟩ := ih ((ind ++ u) ++ "\n\n" ++ acc)
      refine ⟨p ++ ((ind ++ u) ++ "\n\n"), ?_⟩
      rw [List.foldl_cons, hp]
      simp [String.append_assoc]

/-! ## Claims -/

/-- C1: the engine has exactly one failure mode — `extract_module` returns
`none` exactly when the selection is empty or when the selection resolves to
zero body declarations after filtering out non-declarations and import
declarations; every other invocation produces a non-empty edit set. -/
theorem claim_C1 (ctx : AssistCtx) :
    (extract_module ctx = none ↔
      ctx.hasEmptySelection = true
        ∨ (extract_target (covering_node ctx.coveringElement)
            ctx.selectionTrimmed).body_items = [])
  ∧ (∀ edits, extract_module ctx = some edits → edits ≠ []) := by
  unfold extract_module
  cases hsel : ctx.hasEmptySelection with
  | true => simp
  | false =>
      simp only [if_false, Bool.false_eq_true, false_or]
      constructor
      · cases hbody : (extract_target (covering_node ctx.coveringElement)
            ctx.selectionTrimmed).body_items with
        | nil => simp [hbody]
        | cons x xs => simp [hbody]
      · intro edits hedits
        by_cases hbody : (extract_target (covering_node ctx.coveringElement)
            ctx.selectionTrimmed).body_items.isEmpty
        · simp [hbody] at hedits
        · simp only [hbody, if_false, Option.some.injEq, Bool.false_eq_true] at hedits
          subst hedits
          exact builder_edits_ne_nil _

/-- C1 witness: the empty-selection invocation is not applicable, and the
single-function invocation never yields an empty edit set. -/
theorem claim_C1_witness :
    extract_module ctxEmptySel = none ∧ extract_module ctxSimpleFn ≠ some [] :=
  ⟨(claim_C1 ctxEmptySel).1.mpr (Or.inl rfl),
   fun h => (claim_C1 ctxSimpleFn).2 [] h rfl⟩

/-- C2 counterexample: inserting the candidate deletion ranges
`[0,2]`, `[10,12]`, `[0,12]` one at a time leaves the scheduled collection
`[[0,12], [10,12]]`, whose two members overlap — the merge step does not
re-check the enlarged union against the other scheduled ranges, so the
collection is not pairwise non-overlapping as the claim states. -/
theorem claim_C2_counterexample :
    List.foldl check_intersection_and_push []
        [(⟨0, 2⟩ : Rg), ⟨10, 12⟩, ⟨0, 12⟩] = [⟨0, 12⟩, ⟨10, 12⟩]
  ∧ Rg.intersectsB ⟨0, 12⟩ ⟨10, 12⟩ = true := by
  constructor
  · rfl
  · rfl

/-- C2 (amended): each newly computed deletion range that overlaps a
previously scheduled one is replaced together with the *first* such range by
their union and is never kept as a separate overlapping operation; a
non-overlapping range is appended.  (The enlarged union is not re-checked
against the remaining scheduled ranges, so pairwise disjointness of the
whole collection is not guaranteed when one new range overlaps several
scheduled ones.) -/
theorem claim_C2 (scheduled : List Rg) (importPath : Rg) :
    ((∀ x ∈ scheduled, x.intersectsB importPath = false)
        ∧ check_intersection_and_push scheduled importPath = scheduled ++ [importPath])
  ∨ (∃ l1 p l2, scheduled = l1 ++ p :: l2
        ∧ (∀ x ∈ l1, x.intersectsB importPath = false)
        ∧ p.intersectsB importPath = true
        ∧ check_intersection_and_push scheduled importPath
            = l1 ++ p.cover importPath :: l2) := by
  induction scheduled with
  | nil =>
      left
      exact ⟨by intro x hx; exact absurd hx (List.not_mem_nil x), rfl⟩
  | cons q qs ih =>
      cases hq : q.intersectsB importPath with
      | true =>
          right
          exact ⟨[], q, qs, rfl, by intro x hx; exact absurd hx (List.not_mem_nil x), hq,
            by simp [check_intersection_and_push, hq]⟩
      | false =>
          rcases ih with ⟨hall, heq⟩ | ⟨l1, p, l2, hsplit, hl1, hp, heq⟩
          · left
            refine ⟨?_, by simp [check_intersection_and_push, hq, heq]⟩
            intro x hx
            rcases List.mem_cons.mp hx with hx | hx
            · exact hx ▸ hq
            · exact hall x hx
          · right
            refine ⟨q :: l1, p, l2, by rw [hsplit]; rfl, ?_, hp,
              by simp [check_intersection_and_push, hq, heq]⟩
            intro x hx
            rcases List.mem_cons.mp hx with hx | hx
            · exact hx ▸ hq
            · exact hl1 x hx

/-- C2 witness: the amended characterization at a concrete insertion. -/
theorem claim_C2_witness :
    ((∀ x ∈ [(⟨0, 2⟩ : Rg)], x.intersectsB ⟨1, 5⟩ = false)
        ∧ check_intersection_and_push [(⟨0, 2⟩ : Rg)] ⟨1, 5⟩ = [(⟨0, 2⟩ : Rg)] ++ [⟨1, 5⟩])
  ∨ (∃ l1 p l2, [(⟨0, 2⟩ : Rg)] = l1 ++ p :: l2
        ∧ (∀ x ∈ l1, x.intersectsB (⟨1, 5⟩ : Rg) = false)
        ∧ p.intersectsB ⟨1, 5⟩ = true
        ∧ check_intersection_and_push [(⟨0, 2⟩ : Rg)] ⟨1, 5⟩
            = l1 ++ p.cover ⟨1, 5⟩ :: l2) :=
  claim_C2 [(⟨0, 2⟩ : Rg)] ⟨1, 5⟩

/-- C3: visibility monotonicity — over every visibility slot the
visibility-adjustment pass can reach (each body declaration's own modifier,
each impl member's modifier, each struct/union field's modifier), the pass
either leaves the slot unchanged or turns an absent modifier into
`pub(crate)`; a slot that already carries an explicit modifier is never
modified, so no explicit visibility is ever removed or downgraded. -/
theorem claim_C3 (harvested : List Fld) (body_items : List Item) :
    List.Forall₂
      (fun a b => List.Forall₂ vis_monotone (item_vises a) (item_vises b))
      body_items (change_visibility harvested body_items) := by
  unfold change_visibility
  rw [List.forall₂_map_right_iff, List.forall₂_same]
  intro it _
  exact item_vises_mono harvested it

/-- C4: a reference is rewritten to `modname::<originalName>` (a replace
edit on the name's text range) exactly when a name-ref node with the
reference's name text is found among the descendants of the re-resolved
path node with its range outside the selection; when the path cannot be
re-resolved (`none`) or no such node exists, the reference is left
unchanged (`none`), and a produced edit always carries the range of such a
node and the text `modname::<originalName>`. -/
theorem claim_C4 (selection : Rg) (modName nameText : String) (p : STree) :
    get_usage_to_be_processed selection modName nameText none = none
  ∧ ((∃ r s, get_usage_to_be_processed selection modName nameText (some p) = some (r, s)) ↔
      ∃ d ∈ p.descendants, d.kind = SKind.nameRef ∧ d.text = nameText
        ∧ selection.containsRange d.range = false)
  ∧ (∀ r s, get_usage_to_be_processed selection modName nameText (some p) = some (r, s) →
      s = modName ++ "::" ++ nameText
        ∧ ∃ d ∈ p.descendants, d.kind = SKind.nameRef ∧ d.text = nameText ∧ d.range = r
            ∧ selection.containsRange d.range = false) := by
  have hpred : ∀ d : STree,
      (d.text == nameText && !(selection.containsRange d.range)
          && (d.kind == SKind.nameRef)) = true ↔
        d.kind = SKind.nameRef ∧ d.text = nameText
          ∧ selection.containsRange d.range = false := by
    intro d
    simp only [Bool.and_eq_true, beq_iff_eq, Bool.not_eq_true']
    tauto
  refine ⟨rfl, ?_, ?_⟩
  · constructor
    · rintro ⟨r, s, hrs⟩
      simp only [get_usage_to_be_processed] at hrs
      split at hrs
      · rename_i d heq
        have hp := List.find?_some heq
        exact ⟨d, List.mem_of_find?_eq_some heq, (hpred d).mp hp⟩
      · exact absurd hrs (by simp)
    · rintro ⟨d, hmem, hd⟩
      cases hf : p.descendants.find? (fun desc =>
          desc.text == nameText && !(selection.containsRange desc.range)
            && (desc.kind == SKind.nameRef)) with
      | none =>
          exact absurd ((hpred d).mpr hd)
            (by simpa using List.find?_eq_none.mp hf d hmem)
      | some x =>
          refine ⟨x.range, modName ++ "::" ++ x.text, ?_⟩
          simp only [get_usage_to_be_processed]
          rw [hf]
  · intro r s hrs
    simp only [get_usage_to_be_processed] at hrs
    split at hrs
    · rename_i d heq
      have hp := List.find?_some heq
      obtain ⟨hkind, htext, hrange⟩ := (hpred d).mp hp
      obtain ⟨hr, hs⟩ := Prod.mk.injEq .. ▸ Option.some.injEq .. ▸ hrs
      refine ⟨by rw [← hs, htext], d, List.mem_of_find?_eq_some heq,
        hkind, htext, by rw [← hr], hrange⟩
    · exact absurd hrs (by simp)

/-- C4 witness: the usage at range `[5,6)` in `pathTree`, with selection
`[0,3)`, is rewritten to `modname::S` on the name-ref's range. -/
theorem claim_C4_witness :
    "modname::S" = "modname" ++ "::" ++ "S"
  ∧ ∃ d ∈ pathTree.descendants, d.kind = SKind.nameRef ∧ d.text = "S"
      ∧ d.range = ⟨5, 6⟩ ∧ Rg.containsRange ⟨0, 3⟩ d.range = false :=
  (claim_C4 ⟨0, 3⟩ "modname" "S" pathTree).2.2 ⟨5, 6⟩ "modname::S" rfl

/-- C5 counterexample: with the symbol existing inside the selection only
and its source staying outside the selection in the same module, the reused
path `super::x` (collected innermost-first as `["x", "super"]`) is
synthesized *without* the extra leading `super` segment — the prepend step
is skipped in exactly this flag combination (line 598), contradicting the
claim that the extra segment is always prepended when the outermost
segment's text contains `super`. -/
theorem claim_C5_counterexample :
    process_reused_import_path true false true ["x", "super"] = some ["super", "x"]
  ∧ process_reused_import_path true false true ["x", "super"]
      ≠ some ("super" :: ["x", "super"].reverse) := by
  constructor
  · rfl
  · intro h
    rw [show process_reused_import_path true false true ["x", "super"]
        = some ["super", "x"] from rfl] at h
    simp at h

/-- C5 (amended): during import-path reuse, when the flag combination is not
the inside-only-with-source-in-same-module case, a reused import path whose
outer-most segment's rendered text contains the marker `super` gets one
extra leading `super` segment prepended for the new scope; in that excluded
case the reversed path is used as is. -/
theorem claim_C5 (existsInsideSel existsOutsideSel sourceInSameMod : Bool)
    (use_tree_str : List String) (outermost : String)
    (hguard : (existsInsideSel && !existsOutsideSel && sourceInSameMod) = false)
    (hinside : existsInsideSel = true)
    (hhead : use_tree_str.reverse.head? = some outermost)
    (hsuper : strContains outermost "super" = true) :
    process_reused_import_path existsInsideSel existsOutsideSel sourceInSameMod
        use_tree_str
      = some ("super" :: use_tree_str.reverse) := by
  subst hinside
  cases existsOutsideSel with
  | true =>
      simp only [process_reused_import_path, Bool.and_true, Bool.and_self,
        Bool.not_true, Bool.and_false, Bool.true_and, if_true]
      rw [hhead]
      simp [hsuper]
  | false =>
      simp only [Bool.not_false, Bool.true_and, Bool.and_true] at hguard
      subst hguard
      simp only [process_reused_import_path, Bool.and_false, Bool.false_eq_true,
        if_false, Bool.not_false, Bool.true_and, Bool.and_true, if_true,
        Bool.and_self]
      rw [hhead]
      simp [hsuper]

/-- C5 witness: a both-inside-and-outside reuse of `super::x` gets the extra
leading `super`. -/
theorem claim_C5_witness :
    process_reused_import_path true true false ["x", "super"]
      = some ("super" :: ["x", "super"].reverse) :=
  claim_C5 true true false ["x", "super"] "super" rfl rfl rfl rfl

/-- C7: members of a trait-implementing impl block (`for` token present)
never receive an inserted visibility modifier — the whole block is left
untouched by the visibility pass; members of a non-trait impl block go
through the second pass, and an associated declaration (function, constant,
type alias) with no explicit visibility receives `pub(crate)` there. -/
theorem claim_C7 (selfTy : Option String) (members : List Item)
    (harvested : List Fld) (m : Item) :
    change_vis_item harvested (Item.impl_ true selfTy members)
        = Item.impl_ true selfTy members
  ∧ change_vis_item harvested (Item.impl_ false selfTy members)
        = Item.impl_ false selfTy (members.map update_assoc_member)
  ∧ (is_assoc_decl m = true → m.vis = none →
      (update_assoc_member m).vis = some Visibility.crateVisible) := by
  refine ⟨rfl, rfl, ?_⟩
  intro hdecl hvis
  cases m <;> simp only [is_assoc_decl, Bool.false_eq_true] at hdecl <;>
    simp only [Item.vis] at hvis <;>
    subst hvis <;> rfl

/-- C7 witness: a visibility-less member function of a non-trait impl block
receives `pub(crate)` in the second pass. -/
theorem claim_C7_witness :
    change_vis_item [] (Item.impl_ true (some "S") [Item.fn_ none "f"])
        = Item.impl_ true (some "S") [Item.fn_ none "f"]
  ∧ (update_assoc_member (Item.fn_ none "f")).vis = some Visibility.crateVisible :=
  ⟨(claim_C7 (some "S") [Item.fn_ none "f"] [] (Item.fn_ none "f")).1,
   (claim_C7 (some "S") [Item.fn_ none "f"] [] (Item.fn_ none "f")).2.2 rfl rfl⟩

/-- C8: the harvested field list covers exactly the record-style and
positional fields of struct body declarations and the record fields of
union body declarations (under the snapshot assumption that every body
declaration resolves to a definition); a field coming only from enum
variants is never harvested — the forward inclusion into the claimed field
set holds even without the resolvability assumption. -/
theorem claim_C8 (resolves : Item → Bool) (body_items : List Item) (f : Fld) :
    (f ∈ get_record_fields resolves body_items →
      ∃ it ∈ body_items, f ∈ claimed_harvested_fields it)
  ∧ ((∀ it ∈ body_items, resolves it = true) →
      (f ∈ get_record_fields resolves body_items ↔
        ∃ it ∈ body_items, f ∈ claimed_harvested_fields it)) := by
  have hsub : ∀ it, f ∈ adt_fields_of resolves it → f ∈ claimed_harvested_fields it := by
    intro it hf
    cases it <;> simp only [adt_fields_of] at hf <;> try exact absurd hf (List.not_mem_nil f)
    · rename_i v n fl
      by_cases hr : resolves (Item.struct_ v n fl)
      · rw [if_pos hr] at hf
        cases fl with
        | none => exact absurd hf (List.not_mem_nil f)
        | some l =>
            cases l with
            | recordFieldList fs => exact hf
            | tupleFieldList fs => exact hf
      · rw [if_neg hr] at hf
        exact absurd hf (List.not_mem_nil f)
    · rename_i v n fs
      by_cases hr : resolves (Item.union_ v n fs)
      · rw [if_pos hr] at hf
        cases fs with
        | none => exact absurd hf (List.not_mem_nil f)
        | some l => exact hf
      · rw [if_neg hr] at hf
        exact absurd hf (List.not_mem_nil f)
  have heq : ∀ it, resolves it = true →
      adt_fields_of resolves it = claimed_harvested_fields it := by
    intro it hr
    cases it <;> simp only [adt_fields_of, claimed_harvested_fields, hr, if_true] <;> try rfl
    · rename_i v n fl
      cases fl with
      | none => rfl
      | some l => cases l <;> rfl
    · rename_i v n fs
      cases fs <;> rfl
  constructor
  · intro hf
    obtain ⟨it, hit, hfit⟩ := List.mem_flatMap.mp hf
    exact ⟨it, hit, hsub it hfit⟩
  · intro hres
    constructor
    · intro hf
      obtain ⟨it, hit, hfit⟩ := List.mem_flatMap.mp hf
      exact ⟨it, hit, hsub it hfit⟩
    · rintro ⟨it, hit, hfit⟩
      refine List.mem_flatMap.mpr ⟨it, hit, ?_⟩
      rw [heq it (hres it hit)]
      exact hfit

/-- C8 witness: the record field of a resolving moved struct is harvested. -/
theorem claim_C8_witness :
    (⟨none, "x: i32"⟩ : Fld) ∈ get_record_fields (fun _ => true)
      [Item.struct_ none "S"
        (some (FieldList.recordFieldList [⟨none, "x: i32"⟩]))] :=
  ((claim_C8 (fun _ => true)
      [Item.struct_ none "S" (some (FieldList.recordFieldList [⟨none, "x: i32"⟩]))]
      ⟨none, "x: i32"⟩).2 (fun _ _ => rfl)).mpr
    ⟨Item.struct_ none "S" (some (FieldList.recordFieldList [⟨none, "x: i32"⟩])),
      List.mem_singleton.mpr rfl, List.mem_singleton.mpr rfl⟩

/-- C9 counterexample: a selection covering only part of the single free
function (`[0,6)` inside the function's range `[0,11)`, with no child fully
contained) still yields that function as a body declaration, because
`extract_target` appends the covering node unconditionally; under the
claim's reading — the covering node is taken only if it alone is selected,
i.e. the selection coincides with its range — the body list would be empty
and the refactor not applicable. -/
theorem claim_C9_counterexample :
    (extract_target fnNode ⟨0, 6⟩).body_items = [fnNode]
  ∧ (extract_target_claimed fnNode ⟨0, 6⟩).body_items = [] := by
  constructor
  · rfl
  · rfl

/-- C9 (amended): selection analysis keeps exactly the direct children of
the covering node whose range is fully contained in the trimmed selection,
plus the covering node itself *unconditionally* (even when the selection
covers only part of it); of these, only declaration nodes are kept and they
are partitioned into import and body declarations with source order
preserved. -/
theorem claim_C9 (node : STree) (sel : Rg) :
    (extract_target node sel).body_items
        = ((node.children.filter (fun c => sel.containsRange c.range) ++ [node]).filter
            (fun c => c.kind.isItem)).filter (fun c => !(c.kind == SKind.useItem))
  ∧ (extract_target node sel).use_items
        = ((node.children.filter (fun c => sel.containsRange c.range) ++ [node]).filter
            (fun c => c.kind.isItem)).filter (fun c => c.kind == SKind.useItem)
  ∧ (extract_target node sel).text_range = sel
  ∧ (extract_target node sel).name = "modname"
  ∧ (∀ t, t ∈ (extract_target node sel).body_items ↔
      ((t ∈ node.children ∧ sel.containsRange t.range = true) ∨ t = node)
        ∧ t.kind.isItem = true ∧ (t.kind == SKind.useItem) = false) := by
  have hparts :
      ((node.children.filter (fun c => sel.containsRange c.range) ++ [node]).filter
          (fun c => c.kind.isItem)).partition (fun c => c.kind == SKind.useItem)
        = (((node.children.filter (fun c => sel.containsRange c.range) ++ [node]).filter
              (fun c => c.kind.isItem)).filter (fun c => c.kind == SKind.useItem),
           ((node.children.filter (fun c => sel.containsRange c.range) ++ [node]).filter
              (fun c => c.kind.isItem)).filter (fun c => !(c.kind == SKind.useItem))) :=
    List.partition_eq_filter_filter _ _
  refine ⟨?_, ?_, rfl, rfl, ?_⟩
  · simp only [extract_target, hparts]
  · simp only [extract_target, hparts]
  · intro t
    simp only [extract_target, hparts, List.mem_filter, List.mem_append,
      List.mem_singleton, Bool.not_eq_eq_eq_not, Bool.not_true]
    tauto

/-- C9 witness: the amended characterization evaluated on the partial
selection of the single free function. -/
theorem claim_C9_witness :
    (extract_target fnNode ⟨0, 6⟩).text_range = ⟨0, 6⟩ :=
  (claim_C9 fnNode ⟨0, 6⟩).2.2.1

/-- C10: frame property of the edit schedule — every edit scheduled in a
file other than the selection's own is a replace at a usage range taken from
the usage map, and every delete and every insert is scheduled in the
selection's file. -/
theorem claim_C10 (b : BuilderInput) (e : Edit) (he : e ∈ builder_edits b) :
    (e.1 ≠ b.fileId →
      ∃ us, (e.1, us) ∈ b.usages ∧ ∃ rs ∈ us, e.2 = EditK.replace rs.1 rs.2)
  ∧ (∀ r, e.2 = EditK.del r → e.1 = b.fileId)
  ∧ (∀ off s, e.2 = EditK.insert off s → e.1 = b.fileId) := by
  unfold builder_edits at he
  rcases List.mem_append.mp he with hui | ht
  · rcases List.mem_append.mp hui with hu | hi
    · unfold usage_edits at hu
      rcases List.mem_append.mp hu with hother | hcurr
      · obtain ⟨fu, hfu, hmap⟩ := List.mem_flatMap.mp hother
        obtain ⟨rs, hrs, hers⟩ := List.mem_map.mp hmap
        obtain ⟨hfu_mem, _⟩ := List.mem_filter.mp hfu
        subst hers
        refine ⟨fun _ => ⟨fu.2, by simpa using hfu_mem, rs, hrs, rfl⟩, ?_, ?_⟩
        · intro r hr
          simp at hr
        · intro off s hs
          simp at hs
      · obtain ⟨rs, _, hers⟩ := List.mem_map.mp hcurr
        subst hers
        exact ⟨fun hne => absurd rfl hne, fun _ hr => by simp at hr,
          fun _ _ hs => by simp at hs⟩
    · obtain ⟨r, _, her⟩ := List.mem_map.mp hi
      subst her
      exact ⟨fun hne => absurd rfl hne, fun _ _ => rfl, fun _ _ hs => by simp at hs⟩
  · have hf := tail_edits_fst b e ht
    exact ⟨fun hne => absurd hf hne, fun _ _ => hf, fun _ _ _ => hf⟩

/-- C10 witness: the cross-file usage edit of `b10` is a replace taken from
the usage map. -/
theorem claim_C10_witness :
    ∃ us, (e10.1, us) ∈ b10.usages ∧ ∃ rs ∈ us, e10.2 = EditK.replace rs.1 rs.2 :=
  (claim_C10 b10 e10 (by decide)).1 (by decide)

/-- C6: when the selection is hosted inside an impl block with a self type,
the net edit after the usage replaces and import deletes is exactly: delete
the selected member node's range — or the entire impl block's range when
the block's associated-item list has exactly one child — delete the nearest
whitespace sibling preceding the deleted node (the whitespace run
immediately preceding it) when one exists, and insert the new module
immediately after the impl block's end; the inserted module wraps a
reconstructed impl of the same self type whose members are indented two
levels deeper than the original, preceded by a `super`-relative import of
the self type's name. -/
theorem claim_C6 (ctx : AssistCtx) (info : ImplInfo) (ty : String)
    (hsel : ctx.hasEmptySelection = false)
    (hbody : (extract_target (covering_node ctx.coveringElement)
        ctx.selectionTrimmed).body_items ≠ [])
    (himpl : ctx.implParent = some info)
    (hty : info.selfTy = some ty) :
    ∃ pre : String,
      extract_module ctx =
        some (usage_edits (binput ctx) ++ import_delete_edits (binput ctx) ++
          (((ctx.fileId, EditK.del (if info.childCount == 1 then info.range
              else (covering_node ctx.coveringElement).range)) : Edit) ::
            ((match indent_range_before_given_node
                  (if info.childCount == 1 then info.implPrevSiblings
                   else ctx.nodePrevSiblings) with
              | some r => [((ctx.fileId, EditK.del r) : Edit)]
              | none => []) ++
             [((ctx.fileId, EditK.insert info.range.stop
                 ("\n\n" ++ module_def_of (binput ctx))) : Edit)])))
      ∧ module_def_of (binput ctx)
          = "mod " ++ "modname" ++ " \x7b\n"
              ++ (pre ++ ((indent_str (ctx.oldIndent + 1)
                    ++ ("use super::" ++ ty ++ ";")) ++ "\n\n"
                    ++ impl_wrapped (binput ctx) ty))
              ++ "\n" ++ indent_str ctx.oldIndent ++ "\x7d"
      ∧ impl_wrapped (binput ctx) ty
          = indent_str (ctx.oldIndent + 1) ++ "impl " ++ ty ++ " \x7b\n"
              ++ str_intercalate "\n\n"
                  ((binput ctx).bodyTexts.map
                    (fun t => indent_str (ctx.oldIndent + 2) ++ indent_by_1 t))
              ++ "\n" ++ indent_str (ctx.oldIndent + 1) ++ "\x7d" := by
  have himplb : (binput ctx).implParent = some info := himpl
  have hmod : extract_module ctx = some (builder_edits (binput ctx)) := by
    unfold extract_module
    rw [hsel]
    simp only [Bool.false_eq_true, if_false]
    rw [if_neg]
    · rfl
    · intro h
      exact hbody (List.isEmpty_iff.mp h)
  have htail : tail_edits (binput ctx) =
      ((ctx.fileId, EditK.del (if info.childCount == 1 then info.range
          else (covering_node ctx.coveringElement).range)) : Edit) ::
        ((match indent_range_before_given_node
              (if info.childCount == 1 then info.implPrevSiblings
               else ctx.nodePrevSiblings) with
          | some r => [((ctx.fileId, EditK.del r) : Edit)]
          | none => []) ++
         [((ctx.fileId, EditK.insert info.range.stop
             ("\n\n" ++ module_def_of (binput ctx))) : Edit)]) := by
    unfold tail_edits
    rw [himplb]
    rfl
  obtain ⟨pre, hpre⟩ := foldl_use_prepend (indent_str (ctx.oldIndent + 1))
    ((binput ctx).useTexts)
    ((indent_str (ctx.oldIndent + 1) ++ ("use super::" ++ ty ++ ";")) ++ "\n\n"
      ++ impl_wrapped (binput ctx) ty)
  have hbwu : body_with_uses (binput ctx)
      = pre ++ ((indent_str (ctx.oldIndent + 1) ++ ("use super::" ++ ty ++ ";"))
          ++ "\n\n" ++ impl_wrapped (binput ctx) ty) := by
    simp only [body_with_uses, himplb, hty]
    rw [List.foldl_cons]
    exact hpre
  refine ⟨pre, ?_, ?_, ?_⟩
  · rw [hmod]
    unfold builder_edits
    rw [htail]
  · unfold module_def_of
    rw [hbwu]
    rfl
  · unfold impl_wrapped base_body
    have hrni : rendered_new_items (binput ctx)
        = (binput ctx).bodyTexts.map
            (fun t => indent_str (ctx.oldIndent + 2) ++ indent_by_1 t) := by
      unfold rendered_new_items
      rw [himplb]
      rfl
    rw [hrni]
    rfl

/-- C6 witness: the impl-hosted invocation `ctxImpl` (two-member `impl S`,
member at `[20,30)`, whitespace sibling at `[15,20)`) schedules exactly the
member delete, the whitespace delete, and the insert of the wrapped module
after the impl's end. -/
theorem claim_C6_witness :
    ∃ pre : String,
      extract_module ctxImpl =
        some (usage_edits (binput ctxImpl) ++ import_delete_edits (binput ctxImpl) ++
          (((ctxImpl.fileId, EditK.del (if implInfo1.childCount == 1 then implInfo1.range
              else (covering_node ctxImpl.coveringElement).range)) : Edit) ::
            ((match indent_range_before_given_node
                  (if implInfo1.childCount == 1 then implInfo1.implPrevSiblings
                   else ctxImpl.nodePrevSiblings) with
              | some r => [((ctxImpl.fileId, EditK.del r) : Edit)]
              | none => []) ++
             [((ctxImpl.fileId, EditK.insert implInfo1.range.stop
                 ("\n\n" ++ module_def_of (binput ctxImpl))) : Edit)])))
      ∧ module_def_of (binput ctxImpl)
          = "mod " ++ "modname" ++ " \x7b\n"
              ++ (pre ++ ((indent_str (ctxImpl.oldIndent + 1)
                    ++ ("use super::" ++ "S" ++ ";")) ++ "\n\n"
                    ++ impl_wrapped (binput ctxImpl) "S"))
              ++ "\n" ++ indent_str ctxImpl.oldIndent ++ "\x7d"
      ∧ impl_wrapped (binput ctxImpl) "S"
          = indent_str (ctxImpl.oldIndent + 1) ++ "impl " ++ "S" ++ " \x7b\n"
              ++ str_intercalate "\n\n"
                  ((binput ctxImpl).bodyTexts.map
                    (fun t => indent_str (ctxImpl.oldIndent + 2) ++ indent_by_1 t))
              ++ "\n" ++ indent_str (ctxImpl.oldIndent + 1) ++ "\x7d" :=
  claim_C6 ctxImpl implInfo1 "S" rfl
    (by
      rw [show (extract_target (covering_node ctxImpl.coveringElement)
          ctxImpl.selectionTrimmed).body_items = [implFnNode] from rfl]
      exact List.cons_ne_nil _ _)
    rfl rfl

end ExtractModule
